import Mathlib

/-!
Shallow embedding of `src/generate.py` (the includeme index generator).

The program merges symbol→header facts from man pages, two cppreference XML
catalogs and per-symbol HTML detail pages into one table per dialect, then
serializes each table as a sorted balanced binary tree of Lisp data.

Modelling conventions:
* Python dicts become association lists `List (String × α)`; lookup takes the
  first binding, `d[k] = v` overwrites in place (keeping position) or appends.
  Iteration order of a Python 2 dict is an unspecified but deterministic
  order; the model refines it to insertion order.
* Python sets of strings become `List String` kept duplicate-free by
  `setInsert`; set equality is mutual containment (`hsEq`), intersection is
  `interB`, and set iteration is refined to insertion order.
* Strings are processed as `List Char`; the few regular expressions in the
  source are modelled by explicit leftmost-match / backtracking scanners.
* All recursion is structural (fuelled where needed) so that every
  definition evaluates by kernel reduction.
-/

namespace Includeme

/-- Lookup in a Python dict modelled as an association list (first binding). -/
def dlookup {α : Type} : List (String × α) → String → Option α
  | [], _ => none
  | p :: t, k => if p.1 = k then some p.2 else dlookup t k

/-- Python `d[k] = v`: overwrite in place keeping position, else append. -/
def dinsert {α : Type} : List (String × α) → String → α → List (String × α)
  | [], k, v => [(k, v)]
  | p :: t, k, v => if p.1 = k then (k, v) :: t else p :: dinsert t k v

/-- In-place update of the value stored under an existing key (used to model
mutation of a sym dict reached through the table). -/
def dupdate {α : Type} : List (String × α) → String → α → List (String × α)
  | [], _, _ => []
  | p :: t, k, v => if p.1 = k then (k, v) :: t else p :: dupdate t k v

/-- Python `set.add`: append the element unless already present. -/
def setInsert (s : List String) (x : String) : List String :=
  if s.contains x then s else s ++ [x]

/-- Python `set(iterable)` for string iterables: deduplicate, keeping the
first occurrence of each element. -/
def setOfList (l : List String) : List String :=
  l.foldl setInsert []

/-- Python set intersection `a & b` (membership only; order refined). -/
def interB (a b : List String) : List String :=
  a.filter (fun x => b.contains x)

/-- Python set equality (`==` / `!=` on sets): mutual containment. -/
def hsEq (a b : List String) : Bool :=
  a.all (fun x => b.contains x) && b.all (fun x => a.contains x)

/-- Render a header set in a diagnostic message. -/
def renderSet (s : List String) : String :=
  "set([" ++ String.intercalate ", " s ++ "])"

/-- The fixed legacy-header → modern-header table `shadows` of generate.py. -/
def shadows : List (String × String) :=
  [("assert.h", "cassert"),
   ("complex.h", "ccomplex"),
   ("ctype.h", "cctype"),
   ("errno.h", "cerrno"),
   ("fenv.h", "cfenv"),
   ("float.h", "cfloat"),
   ("inttypes.h", "cinttypes"),
   ("limits.h", "climits"),
   ("locale.h", "clocale"),
   ("math.h", "cmath"),
   ("setjmp.h", "csetjmp"),
   ("signal.h", "csignal"),
   ("stdalign.h", "cstdalign"),
   ("stdarg.h", "cstdarg"),
   ("stdbool.h", "cstdbool"),
   ("stddef.h", "cstddef"),
   ("stdint.h", "cstdint"),
   ("stdio.h", "cstdio"),
   ("stdlib.h", "cstdlib"),
   ("string.h", "cstring"),
   ("tgmath.h", "ctgmath"),
   ("time.h", "ctime"),
   ("wchar.h", "cwchar"),
   ("wctype.h", "cwctype")]

/-- Python `shadows.get(hdr, hdr)`. -/
def shadowGet (h : String) : String :=
  match dlookup shadows h with
  | some m => m
  | none => h

/-- Python `set(shadows.keys())` (membership uses only the key list). -/
def shadowKeys : List String :=
  shadows.map Prod.fst

/-- A symbol record as built by the catalog loading passes: the dict
`{'name':…, 'type':…, 'alias':…, 'link':…}` plus the `'header'` key that
header resolution may add later. -/
structure Sym where
  name : String
  type : String
  aliasAttr : Option String
  link : Option String
  header : Option String
deriving DecidableEq

/-- An XML child node of one of the two index files: tag plus the
attributes generate.py reads (`name`, `link`, `alias`). -/
structure XmlNode where
  tag : String
  name : String
  link : Option String
  aliasAttr : Option String
deriving DecidableEq

/-- A value of the final per-dialect index: either a header set or a
redirect to a canonical (qualified) name.  In Python this is the dynamic
distinction `set` versus `basestring` tested by `make_happy_tree`. -/
inductive Val where
  | hdrs : List String → Val
  | redirect : String → Val
deriving DecidableEq

/-- Substring test (`pat in s` for Python strings). -/
def containsSub (pat : List Char) : List Char → Bool
  | [] => pat.isEmpty
  | c :: rest => pat.isPrefixOf (c :: rest) || containsSub pat rest

/-- Case-insensitive prefix test against an already-lowercased pattern
(models a literal matched under `re.I`). -/
def ciStarts : List Char → List Char → Bool
  | [], _ => true
  | _ :: _, [] => false
  | p :: ps, s :: ss => p == s.toLower && ciStarts ps ss

/-- Lazy-dot scan `.{kmin,}?STOP`: all ways to split `s` as
`pre ++ [stop] ++ post` with `pre.length ≥ kmin` and no newline consumed by
the dot, in the order a lazy quantifier tries them (shortest `pre` first). -/
def cutsGe (kmin : Nat) (stop : Char) (s : List Char) : List (List Char × List Char) :=
  (List.range s.length).filterMap (fun k =>
    if kmin ≤ k ∧ s.getD k '\x00' = stop ∧ (s.take k).all (fun c => ¬(c = '\n'))
    then some (s.take k, s.drop (k + 1)) else none)

/-- Tail of the header regex `.+?;(.+?)&` with backtracking over the two
lazy dots: the first `;`-cut whose remainder admits an `&`-cut wins, and the
capture is the shortest `&`-cut of that remainder. -/
def matchTail (s : List Char) : Option (List Char) :=
  match ((cutsGe 1 ';' s).filterMap (fun pr => (cutsGe 1 '&' pr.2).head?)).head? with
  | some pr => some pr.1
  | none => none

/-- Lowercased literal part of the header regex. -/
def lcDefinedInHeader : List Char :=
  ['d', 'e', 'f', 'i', 'n', 'e', 'd', ' ', 'i', 'n', ' ', 'h', 'e', 'a', 'd', 'e', 'r']

/-- Leftmost match of `re.search(r'Defined in header.+?;(.+?)&', html, re.I)`,
returning group 1. -/
def extractHeaderCore : List Char → Option (List Char)
  | [] => none
  | c :: rest =>
    if ciStarts lcDefinedInHeader (c :: rest) then
      match matchTail ((c :: rest).drop lcDefinedInHeader.length) with
      | some cap => some cap
      | none => extractHeaderCore rest
    else extractHeaderCore rest

/-- The characters of the escape sequence `&lt;`. -/
def ltEsc : List Char := ['&', 'l', 't', ';']

/-- Fuelled left-to-right removal of every occurrence of `&lt;`
(Python `header.replace('&lt;', '')`). -/
def removeLtEscF : Nat → List Char → List Char
  | 0, s => s
  | _ + 1, [] => []
  | fuel + 1, c :: rest =>
    if ltEsc.isPrefixOf (c :: rest) then removeLtEscF fuel (rest.drop 3)
    else c :: removeLtEscF fuel rest

/-- Python `header.replace('&lt;', '')`. -/
def removeLtEsc (s : List Char) : List Char :=
  removeLtEscF s.length s

/-- Header extraction from one detail-page body: regex search then the
`fenv.h` decoration workaround. -/
def extractHeader (html : String) : Option String :=
  match extractHeaderCore html.data with
  | some cap => some (String.mk (removeLtEsc cap))
  | none => none

/-- Leftmost match of `re.search('#include <(.*?)>', line)`, returning the
captured (possibly empty) header token. -/
def findInclude : List Char → Option (List Char)
  | [] => none
  | c :: rest =>
    if "#include <".data.isPrefixOf (c :: rest) then
      match (cutsGe 0 '>' ((c :: rest).drop 10)).head? with
      | some pr => some pr.1
      | none => findInclude rest
    else findInclude rest

/-- Word characters of the class `[a-zA-Z_0-9]`. -/
def isWordChar (c : Char) : Bool :=
  ('a' ≤ c && c ≤ 'z') || ('A' ≤ c && c ≤ 'Z') || ('0' ≤ c && c ≤ '9') || c = '_'

/-- Suffix part `\*?([a-zA-Z_0-9]+)\(` of the function regex: an optional
star, then a maximal nonempty identifier, then an opening parenthesis. -/
def identAfter (u : List Char) : Option (List Char) :=
  let core := fun (v : List Char) =>
    let run := v.takeWhile isWordChar
    if run ≠ [] ∧ (v.drop run.length).head? = some '(' then some run else none
  match u with
  | '*' :: v => core v
  | _ => core u

/-- Greedy part `.+ \*?([a-zA-Z_0-9]+)\(` of the function regex applied
after the opening quote: the greedy dot prefers the rightmost space that is
followed by a star/identifier/parenthesis match. -/
def funcScan (t : List Char) : Option (List Char) :=
  ((List.range t.length).reverse.filterMap (fun j =>
    if 1 ≤ j ∧ t.getD j '\x00' = ' ' ∧ (t.take j).all (fun c => ¬(c = '\n'))
    then identAfter (t.drop (j + 1)) else none)).head?

/-- Leftmost match of `re.search(r'BI? ".+ \*?([a-zA-Z_0-9]+)\(', line)`,
returning the captured identifier. -/
def searchFuncFrom : List Char → Option (List Char)
  | [] => none
  | c :: rest =>
    (if c = 'B' then
      match
        (match rest with
         | 'I' :: ' ' :: '"' :: t => some t
         | ' ' :: '"' :: t => some t
         | _ => none) with
      | some t =>
        match funcScan t with
        | some r => some r
        | none => searchFuncFrom rest
      | none => searchFuncFrom rest
    else searchFuncFrom rest)

/-- Page-scoped state of `parse_man` plus its outputs: the accumulated
include set, the facts yielded so far and the diagnostics printed so far. -/
structure PMState where
  includes : List String
  facts : List (String × List String)
  diags : List String
deriving DecidableEq

/-- Include accumulation of one `parse_man` line: the two conditional
`#include` searches applied to the running include set. -/
def pmIncludes (includes : List String) (line : String) : List String :=
  let cs := line.data
  let inc1 :=
    if ".B ".data.isPrefixOf cs || ".BR \"#inc".data.isPrefixOf cs then
      match findInclude cs with
      | some cap => setInsert includes (String.mk cap)
      | none => includes
    else includes
  if ".BR \"#inc".data.isPrefixOf cs then
    match findInclude cs with
    | some cap => setInsert inc1 (String.mk cap)
    | none => inc1
  else inc1

/-- One iteration of the `parse_man` line loop.  Returns the new state and
whether the loop breaks (`DESCRIPTION` reached).  The `continue` taken when
a function is found with no includes skips that line's break test. -/
def pmLine (path : String) (st : PMState) (line : String) : PMState × Bool :=
  let cs := line.data
  let inc2 := pmIncludes st.includes line
  match (if ".B".data.isPrefixOf cs then searchFuncFrom cs else none) with
  | some f =>
    if inc2.isEmpty then
      (⟨inc2, st.facts, st.diags ++ ["no includes for " ++ String.mk f ++ " in " ++ path]⟩, false)
    else
      (⟨inc2, st.facts ++ [(String.mk f, inc2)], st.diags⟩, containsSub "DESCRIPTION".data cs)
  | none => (⟨inc2, st.facts, st.diags⟩, containsSub "DESCRIPTION".data cs)

/-- The `parse_man` line loop. -/
def pmGo (path : String) : List String → PMState → PMState
  | [], st => st
  | line :: rest, st =>
    match pmLine path st line with
    | (st2, brk) => if brk then st2 else pmGo path rest st2

/-- Model of `parse_man(path, text)`: the facts it yields and the
diagnostics it prints while scanning one man page. -/
def parse_man (path : String) (text : List String) : PMState :=
  pmGo path text ⟨[], [], []⟩

/-- State of the man-symbol accumulation loop in `main`: the `man_syms`
dict and the conflict diagnostics printed so far. -/
structure ManState where
  tbl : List (String × List String)
  diags : List String
deriving DecidableEq

/-- The conflict diagnostic `'does %s have %r or %r?'`. -/
def manConflictMsg (func : String) (stored new : List String) : String :=
  "does " ++ func ++ " have " ++ renderSet stored ++ " or " ++ renderSet new ++ "?"

/-- One iteration of the loop over `parse_man` facts in `main`: a
first-seen name is inserted; a repeated name leaves the table unchanged and
prints a conflict exactly when the header sets differ. -/
def manStep (st : ManState) (f : String × List String) : ManState :=
  match dlookup st.tbl f.1 with
  | some stored =>
    if hsEq stored f.2 then st
    else ⟨st.tbl, st.diags ++ [manConflictMsg f.1 stored f.2]⟩
  | none => ⟨st.tbl ++ [(f.1, f.2)], st.diags⟩

/-- The man-fact accumulation loop run over a stream of facts. -/
def manRun (facts : List (String × List String)) : ManState :=
  facts.foldl manStep ⟨[], []⟩

/-- Loading of `man_syms` from the man-page corpus: every page is parsed
and the resulting fact stream is folded by `manStep`. -/
def buildManSyms (manPages : List (String × List String)) : ManState :=
  manRun ((manPages.map (fun pg => (parse_man pg.1 pg.2).facts)).flatten)

/-- The C index loading loop: skip nodes without a link, with a link that
is not a direct per-symbol path, with a link into the `cpp/` namespace, or
with a parenthesis in the name; keep the rest keyed by name. -/
def loadC (nodes : List XmlNode) : List (String × Sym) :=
  nodes.foldl (fun acc nd =>
    match nd.link with
    | none => acc
    | some l =>
      if ¬ l.data.contains '/' then acc
      else if "cpp/".data.isPrefixOf l.data then acc
      else if nd.name.data.contains '(' then acc
      else dinsert acc nd.name ⟨nd.name, nd.tag, none, some l, none⟩) []

/-- The C++ index loading loop: skip only names containing a parenthesis;
keep every node (alias nodes included) keyed by name. -/
def loadCpp (nodes : List XmlNode) : List (String × Sym) :=
  nodes.foldl (fun acc nd =>
    if nd.name.data.contains '(' then acc
    else dinsert acc nd.name ⟨nd.name, nd.tag, nd.aliasAttr, nd.link, none⟩) []

/-- Python truthiness of the optional `alias` attribute. -/
def falsyOpt : Option String → Bool
  | none => true
  | some s => s = ""

/-- The message of the `KeyError` raised by `cpp_syms[sym['alias']]`. -/
def aliasErrMsg (a : String) : String :=
  "KeyError: " ++ a

/-- One iteration of the alias-resolution pass over `cpp_syms.values()`:
for a record with a truthy alias, look the target up in the current table
(raising `KeyError` if absent), rewrite the record's kind to the composite
`kind(targetKind)` tag and inherit the target's link. -/
def resolveAliasStep (tbl : List (String × Sym)) (name : String) : Except String (List (String × Sym)) :=
  match dlookup tbl name with
  | none => .ok tbl
  | some sym =>
    if falsyOpt sym.aliasAttr then .ok tbl
    else
      match sym.aliasAttr with
      | none => .ok tbl
      | some a =>
        match dlookup tbl a with
        | none => .error (aliasErrMsg a)
        | some other =>
          .ok (dupdate tbl name
            { sym with type := sym.type ++ "(" ++ other.type ++ ")", link := other.link })

/-- The alias-resolution loop over a list of record names. -/
def resolveAliasGo : List String → List (String × Sym) → Except String (List (String × Sym))
  | [], tbl => .ok tbl
  | n :: ns, tbl =>
    match resolveAliasStep tbl n with
    | .error e => .error e
    | .ok tbl2 => resolveAliasGo ns tbl2

/-- The C++ second pass resolving typedef aliases, iterating the records in
table order. -/
def resolveAliases (tbl : List (String × Sym)) : Except String (List (String × Sym)) :=
  resolveAliasGo (tbl.map Prod.fst) tbl

/-- The header-resolution pass.  The source groups records by link and
assigns the extracted header to every record of a group; since each record
carries its own link, that fan-out is modelled by updating each record from
the (black-box) page store keyed by its link. -/
def resolveHeaders (pages : List (String × String)) (tbl : List (String × Sym)) : List (String × Sym) :=
  tbl.map (fun p =>
    match p.2.link with
    | none => p
    | some l =>
      match dlookup pages l with
      | none => p
      | some html =>
        match extractHeader html with
        | some h => (p.1, { p.2 with header := some h })
        | none => p)

/-- Python truthiness of `sym.get('header')`. -/
def truthyHeader (s : Sym) : Bool :=
  match s.header with
  | some h => ¬(h = "")
  | none => false

/-- The header string of a record whose header is truthy. -/
def headerOf (s : Sym) : String :=
  match s.header with
  | some h => h
  | none => ""

/-- Python `name.startswith('std::')`. -/
def isStdQualified (name : String) : Bool :=
  "std::".data.isPrefixOf name.data

/-- Python `name[5:]`. -/
def stripStd (name : String) : String :=
  String.mk (name.data.drop 5)

/-- The salvaged header set built from a cross-reference entry:
`set(shadows.get(hdr, hdr) for hdr in entry)`. -/
def salvagedSet (entry : List String) : List String :=
  setOfList (entry.map shadowGet)

/-- The `'salvaging %s -> %s (from c)'` diagnostic. -/
def salvageCMsg (name : String) (hdrs : List String) : String :=
  "salvaging " ++ name ++ " -> " ++ renderSet hdrs ++ " (from c)"

/-- The `'salvaging %s -> %s (from man)'` diagnostic. -/
def salvageManMsg (name : String) (hdrs : List String) : String :=
  "salvaging " ++ name ++ " -> " ++ renderSet hdrs ++ " (from man)"

/-- The `'discard %s symbol: %s'` diagnostic. -/
def discardMsg (lang name : String) : String :=
  "discard " ++ lang ++ " symbol: " ++ name

/-- The salvage guard against a `name → set(header)` cross-reference table:
`name[5:] in tbl and tbl[name[5:]] & set(shadows.keys())`. -/
def salvageGuard (tbl : List (String × List String)) (name : String) : Bool :=
  match dlookup tbl (stripStd name) with
  | some s => ¬(interB s shadowKeys).isEmpty
  | none => false

/-- One iteration of `filter_syms` during the C pass.  The salvage guard
reads the variable `c_syms`, which at that point still holds the C record
dicts, so a name passing the first two conjuncts reaches `dict & set` and
raises a `TypeError`; the man fallback behaves normally. -/
def filterCStep (recTbl : List (String × Sym)) (manTbl : List (String × List String))
    (st : List (String × List String) × List String) (e : String × Sym) :
    Except String (List (String × List String) × List String) :=
  if truthyHeader e.2 then
    .ok (st.1 ++ [(e.1, [headerOf e.2])], st.2)
  else if isStdQualified e.1 ∧ (dlookup recTbl (stripStd e.1)).isSome then
    .error "TypeError: unsupported operand type(s) for &"
  else
    match (if isStdQualified e.1 then dlookup manTbl (stripStd e.1) else none) with
    | some m =>
      if ¬(interB m shadowKeys).isEmpty then
        .ok (st.1 ++ [(e.1, salvagedSet m)], st.2 ++ [salvageManMsg e.1 (salvagedSet m)])
      else .ok (st.1, st.2 ++ [discardMsg "C" e.1])
    | none => .ok (st.1, st.2 ++ [discardMsg "C" e.1])

/-- The C `filter_syms` loop. -/
def filterCGo (recTbl : List (String × Sym)) (manTbl : List (String × List String)) :
    List (String × Sym) → List (String × List String) × List String →
    Except String (List (String × List String) × List String)
  | [], st => .ok st
  | e :: es, st =>
    match filterCStep recTbl manTbl st e with
    | .error m => .error m
    | .ok st2 => filterCGo recTbl manTbl es st2

/-- Model of `dict(filter_syms('C', c_syms))` together with its printed
diagnostics. -/
def filter_syms_C (recTbl : List (String × Sym)) (manTbl : List (String × List String)) :
    Except String (List (String × List String) × List String) :=
  filterCGo recTbl manTbl recTbl ([], [])

/-- One iteration of `filter_syms` during the C++ pass, where `c_syms`
already holds the filtered `name → set(header)` table: keep a truthy
header, otherwise salvage through the C table, then through the man table,
otherwise discard. -/
def filterCppStep (cTbl manTbl : List (String × List String))
    (st : List (String × List String) × List String) (e : String × Sym) :
    List (String × List String) × List String :=
  if truthyHeader e.2 then
    (st.1 ++ [(e.1, [headerOf e.2])], st.2)
  else
    match (if isStdQualified e.1 then dlookup cTbl (stripStd e.1) else none) with
    | some s =>
      if ¬(interB s shadowKeys).isEmpty then
        (st.1 ++ [(e.1, salvagedSet s)], st.2 ++ [salvageCMsg e.1 (salvagedSet s)])
      else
        match (if isStdQualified e.1 then dlookup manTbl (stripStd e.1) else none) with
        | some m =>
          if ¬(interB m shadowKeys).isEmpty then
            (st.1 ++ [(e.1, salvagedSet m)], st.2 ++ [salvageManMsg e.1 (salvagedSet m)])
          else (st.1, st.2 ++ [discardMsg "C++" e.1])
        | none => (st.1, st.2 ++ [discardMsg "C++" e.1])
    | none =>
      match (if isStdQualified e.1 then dlookup manTbl (stripStd e.1) else none) with
      | some m =>
        if ¬(interB m shadowKeys).isEmpty then
          (st.1 ++ [(e.1, salvagedSet m)], st.2 ++ [salvageManMsg e.1 (salvagedSet m)])
        else (st.1, st.2 ++ [discardMsg "C++" e.1])
      | none => (st.1, st.2 ++ [discardMsg "C++" e.1])

/-- Model of `dict(filter_syms('C++', cpp_syms))` together with its printed
diagnostics. -/
def filter_syms_cpp (cTbl manTbl : List (String × List String))
    (recTbl : List (String × Sym)) : List (String × List String) × List String :=
  recTbl.foldl (filterCppStep cTbl manTbl) ([], [])

/-- One iteration of the man-symbol backfill loop: insert into the C table
only when the name is absent there, and into the C++ table only when
neither the bare nor the `std::`-qualified name exists, shadow-mapping the
headers on C++ insertion. -/
def mergeStep (st : List (String × List String) × List (String × List String))
    (f : String × List String) :
    List (String × List String) × List (String × List String) :=
  let cs2 := if (dlookup st.1 f.1).isSome then st.1 else st.1 ++ [(f.1, f.2)]
  let cpps2 :=
    if (dlookup st.2 f.1).isSome || (dlookup st.2 ("std::" ++ f.1)).isSome then st.2
    else st.2 ++ [(f.1, salvagedSet f.2)]
  (cs2, cpps2)

/-- The man-symbol backfill loop over `man_syms.items()`. -/
def mergeMan (cs cpps : List (String × List String)) (man : List (String × List String)) :
    List (String × List String) × List (String × List String) :=
  man.foldl mergeStep (cs, cpps)

/-- View of a filtered `name → set(header)` table as final-index values. -/
def toVal (t : List (String × List String)) : List (String × Val) :=
  t.map (fun p => (p.1, Val.hdrs p.2))

/-- Position just after the last occurrence of `::`
(Python `name.rindex('::') + 2`), or `none` when `::` does not occur. -/
def lastSepEnd (cs : List Char) : Option Nat :=
  match ((List.range cs.length).filterMap (fun i =>
    if [':', ':'].isPrefixOf (cs.drop i) then some (i + 2) else none)).getLast? with
  | some j => some j
  | none => none

/-- The trailing unqualified component of a namespace-qualified name, when
the name contains the separator. -/
def shortNameOf (name : String) : Option String :=
  match lastSepEnd name.data with
  | some j => some (String.mk (name.data.drop j))
  | none => none

/-- One iteration of the decanonicalization loop: for a qualified name,
register its short form as a redirect when the short form is absent,
otherwise report a conflict and leave the table unchanged. -/
def decanonStep (st : List (String × Val) × List String) (e : String × Val) :
    List (String × Val) × List String :=
  match shortNameOf e.1 with
  | none => st
  | some short =>
    if (dlookup st.1 short).isSome then (st.1, st.2 ++ ["conflict " ++ e.1])
    else (st.1 ++ [(short, Val.redirect e.1)], st.2)

/-- The decanonicalization pass over a snapshot (`items()[:]`) of the C++
index, returning the extended index and the conflict diagnostics. -/
def decanonicalize (tbl : List (String × Val)) : List (String × Val) × List String :=
  tbl.foldl decanonStep (tbl, [])

/-- A node of the serialized Lisp tree: `nil` or an entry with two
children. -/
inductive HTree (α : Type) where
  | nil : HTree α
  | node : α → HTree α → HTree α → HTree α
deriving DecidableEq

/-- In-order traversal of a tree. -/
def inorder {α : Type} : HTree α → List α
  | .nil => []
  | .node e l r => inorder l ++ e :: inorder r

/-- Number of nodes on the longest root-to-leaf path. -/
def depth {α : Type} : HTree α → Nat
  | .nil => 0
  | .node _ l r => 1 + max (depth l) (depth r)

/-- Fuelled form of `do_node(start, end)` of `make_happy_tree`, building
the tree denoted by the emitted text: an empty range emits `nil`, otherwise
the midpoint entry becomes a node whose children are the two halves. -/
def do_nodeF {α : Type} : Nat → List α → HTree α
  | 0, _ => .nil
  | _ + 1, [] => .nil
  | fuel + 1, x :: xs =>
    let p := (x :: xs).length / 2
    .node ((x :: xs).getD p x) (do_nodeF fuel ((x :: xs).take p))
      (do_nodeF fuel ((x :: xs).drop (p + 1)))

/-- The tree built by `do_node(0, len(syms))`. -/
def do_node {α : Type} (l : List α) : HTree α :=
  do_nodeF l.length l

/-- Strict lexicographic order on character lists (Python 2 byte-string
comparison used by `list.sort`). -/
def lexLt : List Char → List Char → Bool
  | [], [] => false
  | [], _ :: _ => true
  | _ :: _, [] => false
  | a :: as, b :: bs => if a < b then true else if b < a then false else lexLt as bs

/-- Stable insertion into a list sorted by name. -/
def insByName : (String × Val) → List (String × Val) → List (String × Val)
  | x, [] => [x]
  | x, y :: ys => if lexLt y.1.data x.1.data then y :: insByName x ys else x :: y :: ys

/-- Model of `syms.sort(key=operator.itemgetter(0))`: a stable sort of the
entry list by name. -/
def sortSyms (l : List (String × Val)) : List (String × Val) :=
  l.foldr insByName []

/-- The tree of entries serialized by `make_happy_tree(out, syms)`. -/
def make_happy_tree (syms : List (String × Val)) : HTree (String × Val) :=
  do_node (sortSyms syms)

/-- Python `" ".join`. -/
def joinSpace : List String → String
  | [] => ""
  | [h] => h
  | h :: t => h ++ " " ++ joinSpace t

/-- The text written for one entry: a pointer node
`(("name" . target)\n` or a canonical node `(("name" h1 h2)\n`. -/
def entryText (e : String × Val) : String :=
  match e.2 with
  | Val.redirect c => "((\"" ++ e.1 ++ "\" . " ++ c ++ ")\n"
  | Val.hdrs hs => "((\"" ++ e.1 ++ "\" " ++ joinSpace hs ++ ")\n"

/-- Fuelled text emission of `do_node`: entry text, left subtree, ` . `,
right subtree, `)`; an empty range writes `nil`. -/
def do_nodeTextF : Nat → List (String × Val) → String
  | 0, _ => "nil"
  | _ + 1, [] => "nil"
  | fuel + 1, x :: xs =>
    let p := (x :: xs).length / 2
    entryText ((x :: xs).getD p x) ++ do_nodeTextF fuel ((x :: xs).take p) ++ " . " ++
      do_nodeTextF fuel ((x :: xs).drop (p + 1)) ++ ")"

/-- The full text written by `make_happy_tree`: a quote followed by the
root node's text. -/
def make_happy_tree_text (syms : List (String × Val)) : String :=
  "\x27" ++ do_nodeTextF (sortSyms syms).length (sortSyms syms)

/-- One output artifact: `(setq NAME TREE)\n`. -/
def serializeArtifact (varName : String) (tbl : List (String × Val)) : String :=
  "(setq " ++ varName ++ " " ++ make_happy_tree_text tbl ++ ")\n"

/-- Decidable form of the final-index invariant: every entry carries a
non-empty header set, or redirects to a name that is itself an entry of the
index carrying a non-empty header set (so no redirect targets a redirect
and every redirect chain has length exactly 1). -/
def finalIndexOkB (t : List (String × Val)) : Bool :=
  t.all (fun p =>
    match p.2 with
    | Val.hdrs hs => !hs.isEmpty
    | Val.redirect tgt =>
      match dlookup t tgt with
      | some (Val.hdrs hs) => !hs.isEmpty
      | _ => false)

/-- Every value of a `name → set(header)` table is a non-empty set. -/
def valsNonempty (t : List (String × List String)) : Bool :=
  t.all (fun p => !p.2.isEmpty)

/-- The inputs of one run of `main`: the man pages in enumeration order
(path and lines, decompression already done), the child nodes of the two
XML index documents, and the page-body store keyed by link identifier. -/
structure Inputs where
  manPages : List (String × List String)
  cNodes : List XmlNode
  cppNodes : List XmlNode
  pages : List (String × String)
deriving DecidableEq

/-- The results of one run of `main`: the two final indexes handed to
`make_happy_tree` and the two serialized artifacts. -/
structure MainOut where
  cFinal : List (String × Val)
  cppFinal : List (String × Val)
  artifactC : String
  artifactCpp : String
deriving DecidableEq

/-- The whole `main` pipeline: man-page loading, catalog loading, alias
resolution, header resolution, filtering with salvage, man backfill,
decanonicalization and serialization.  A missing alias target or the
`TypeError` reachable in the C filter pass aborts the run. -/
def runMain (inp : Inputs) : Except String MainOut :=
  let man := buildManSyms inp.manPages
  let cRecs := loadC inp.cNodes
  let cppRecs0 := loadCpp inp.cppNodes
  match resolveAliases cppRecs0 with
  | .error e => .error e
  | .ok cppRecs1 =>
    let cRecs2 := resolveHeaders inp.pages cRecs
    let cppRecs2 := resolveHeaders inp.pages cppRecs1
    match filter_syms_C cRecs2 man.tbl with
    | .error e => .error e
    | .ok cF =>
      let cppF := filter_syms_cpp cF.1 man.tbl cppRecs2
      let merged := mergeMan cF.1 cppF.1 man.tbl
      let cFinal := toVal merged.1
      let cppFinal := (decanonicalize (toVal merged.2)).1
      .ok ⟨cFinal, cppFinal,
        serializeArtifact "includeme-index-c" cFinal,
        serializeArtifact "includeme-index-cpp" cppFinal⟩

/-- A small concrete input used to instantiate the pipeline theorems: one
man page, one C catalog node, one C++ catalog node and two detail pages. -/
def sampleInputs : Inputs :=
  ⟨[("man3/fstat.3", [".B #include <sys/stat.h>", ".BI \"int fstat(int fd)\"", "DESCRIPTION"])],
   [⟨"const", "printf", some "c/io/printf", none⟩],
   [⟨"const", "std::log10", some "cpp/numeric/math/log10", none⟩],
   [("c/io/printf", "x Defined in header y;cstdio&z"),
    ("cpp/numeric/math/log10", "x Defined in header y;cmath&z")]⟩

/-- The output `runMain` computes on `sampleInputs`. -/
def sampleOut : MainOut :=
  ⟨[("printf", Val.hdrs ["cstdio"]), ("fstat", Val.hdrs ["sys/stat.h"])],
   [("std::log10", Val.hdrs ["cmath"]), ("fstat", Val.hdrs ["sys/stat.h"]),
    ("log10", Val.redirect "std::log10")],
   "(setq includeme-index-c \x27((\"printf\" cstdio)\n((\"fstat\" sys/stat.h)\nnil . nil) . nil))\n",
   "(setq includeme-index-cpp \x27((\"log10\" . std::log10)\n((\"fstat\" sys/stat.h)\nnil . nil) . ((\"std::log10\" cmath)\nnil . nil)))\n"⟩

theorem dlookup_append_of_isSome {α : Type} (t t2 : List (String × α)) (k : String)
    (h : (dlookup t k).isSome = true) : dlookup (t ++ t2) k = dlookup t k := by
  induction t with
  | nil => simp [dlookup] at h
  | cons p t ih =>
    by_cases hk : p.1 = k
    · simp [dlookup, hk]
    · simp only [dlookup, hk, if_false] at h
      simpa [dlookup, hk] using ih h

theorem dlookup_isSome_of_mem {α : Type} (t : List (String × α)) (p : String × α)
    (h : p ∈ t) : (dlookup t p.1).isSome = true := by
  induction t with
  | nil => simp at h
  | cons q t ih =>
    rcases List.mem_cons.mp h with h | h
    · subst h; simp [dlookup]
    · by_cases hk : q.1 = p.1
      · simp [dlookup, hk]
      · simpa [dlookup, hk] using ih h

theorem take_getD_drop {α : Type} :
    ∀ (l : List α) (p : Nat), p < l.length → ∀ d : α,
      l.take p ++ l.getD p d :: l.drop (p + 1) = l
  | [], p, h, d => by simp at h
  | x :: xs, 0, _, d => by simp [List.getD]
  | x :: xs, p + 1, h, d => by
    simp only [List.take_succ_cons, List.drop_succ_cons, List.getD_cons_succ, List.cons_append,
      List.cons.injEq, true_and]
    exact take_getD_drop xs p (by simpa using h) d

theorem inorder_do_nodeF {α : Type} :
    ∀ (fuel : Nat) (l : List α), l.length ≤ fuel → inorder (do_nodeF fuel l) = l
  | 0, l, h => by
    have : l = [] := List.eq_nil_of_length_eq_zero (Nat.le_zero.mp h)
    subst this; rfl
  | fuel + 1, [], _ => rfl
  | fuel + 1, x :: xs, h => by
    have hlen : (x :: xs).length = xs.length + 1 := by simp
    set n := (x :: xs).length with hn
    have hpos : 0 < n := by simp [hn]
    have hp : n / 2 < n := Nat.div_lt_self hpos (by norm_num)
    have htake : ((x :: xs).take (n / 2)).length ≤ fuel := by
      simp only [List.length_take]
      omega
    have hdrop : ((x :: xs).drop (n / 2 + 1)).length ≤ fuel := by
      simp only [List.length_drop]
      omega
    simp only [do_nodeF, inorder]
    rw [inorder_do_nodeF fuel _ htake, inorder_do_nodeF fuel _ hdrop]
    exact take_getD_drop (x :: xs) (n / 2) hp x

theorem depth_do_nodeF {α : Type} :
    ∀ (fuel : Nat) (l : List α), l.length ≤ fuel →
      depth (do_nodeF fuel l) = Nat.clog 2 (l.length + 1)
  | 0, l, h => by
    have : l = [] := List.eq_nil_of_length_eq_zero (Nat.le_zero.mp h)
    subst this; simp [do_nodeF, depth, Nat.clog_one_right]
  | fuel + 1, [], _ => by simp [do_nodeF, depth, Nat.clog_one_right]
  | fuel + 1, x :: xs, h => by
    set n := (x :: xs).length with hn
    have hpos : 0 < n := by simp [hn]
    have hp : n / 2 < n := Nat.div_lt_self hpos (by norm_num)
    have htakelen : ((x :: xs).take (n / 2)).length = n / 2 := by
      simp only [List.length_take]; omega
    have hdroplen : ((x :: xs).drop (n / 2 + 1)).length = n - (n / 2 + 1) := by
      simp only [List.length_drop]
    have htake : ((x :: xs).take (n / 2)).length ≤ fuel := by rw [htakelen]; omega
    have hdrop : ((x :: xs).drop (n / 2 + 1)).length ≤ fuel := by rw [hdroplen]; omega
    simp only [do_nodeF, depth]
    rw [depth_do_nodeF fuel _ htake, depth_do_nodeF fuel _ hdrop, htakelen, hdroplen]
    have hle : n - (n / 2 + 1) + 1 ≤ n / 2 + 1 := by omega
    have hmax : max (Nat.clog 2 (n / 2 + 1)) (Nat.clog 2 (n - (n / 2 + 1) + 1)) =
        Nat.clog 2 (n / 2 + 1) :=
      Nat.max_eq_left (Nat.clog_mono_right 2 hle)
    rw [hmax, Nat.clog_of_two_le (by norm_num) (by omega : 2 ≤ n + 1)]
    have : (n + 1 + 2 - 1) / 2 = n / 2 + 1 := by omega
    rw [this]
    omega

theorem lexLt_irrefl : ∀ a : List Char, lexLt a a = false
  | [] => rfl
  | c :: cs => by simp [lexLt, lt_irrefl, lexLt_irrefl cs]

theorem lexLt_nil_right : ∀ b : List Char, lexLt b [] = false
  | [] => rfl
  | _ :: _ => rfl

theorem lexLt_asymm : ∀ a b : List Char, lexLt a b = true → lexLt b a = false
  | [], [], h => by simp [lexLt] at h
  | [], _ :: _, _ => rfl
  | _ :: _, [], h => by simp [lexLt] at h
  | a :: as, b :: bs, h => by
    by_cases hab : a < b
    · simp only [lexLt, if_neg (asymm hab), if_pos hab]
    · by_cases hba : b < a
      · simp [lexLt, hab, hba] at h
      · simp only [lexLt, if_neg hab, if_neg hba] at h
        simp only [lexLt, if_neg hba, if_neg hab, lexLt_asymm as bs h]

theorem lexLt_trans : ∀ a b c : List Char,
    lexLt a b = true → lexLt b c = true → lexLt a c = true
  | [], b, [], _, h2 => by rw [lexLt_nil_right b] at h2; exact absurd h2 (by simp)
  | [], _, _ :: _, _, _ => rfl
  | _ :: _, [], _, h1, _ => by simp [lexLt] at h1
  | _ :: _, _ :: _, [], _, h2 => by simp [lexLt] at h2
  | a :: as, b :: bs, c :: cs, h1, h2 => by
    by_cases hab : a < b
    · by_cases hbc : b < c
      · simp [lexLt, lt_trans hab hbc]
      · by_cases hcb : c < b
        · simp [lexLt, hab, hbc, hcb] at h2
        · have hbc' : b = c := le_antisymm (le_of_not_lt hcb) (le_of_not_lt hbc)
          subst hbc'; simp [lexLt, hab]
    · by_cases hba : b < a
      · simp [lexLt, hab, hba] at h1
      · have hab' : a = b := le_antisymm (le_of_not_lt hba) (le_of_not_lt hab)
        subst hab'
        simp only [lexLt, if_neg hab, if_neg hba] at h1
        by_cases hbc : a < c
        · simp [lexLt, hbc]
        · by_cases hcb : c < a
          · simp [lexLt, hbc, hcb] at h2
          · simp only [lexLt, if_neg hbc, if_neg hcb] at h2 ⊢
            exact lexLt_trans as bs cs h1 h2

theorem lexLt_conn : ∀ a b : List Char, lexLt a b = false → lexLt b a = false → a = b
  | [], [], _, _ => rfl
  | [], _ :: _, h1, _ => by simp [lexLt] at h1
  | _ :: _, [], _, h2 => by simp [lexLt] at h2
  | a :: as, b :: bs, h1, h2 => by
    by_cases hab : a < b
    · simp [lexLt, hab] at h1
    · by_cases hba : b < a
      · simp [lexLt, hab, hba] at h2
      · have hab' : a = b := le_antisymm (le_of_not_lt hba) (le_of_not_lt hab)
        subst hab'
        simp only [lexLt, if_neg hab, if_neg hba] at h1 h2
        rw [lexLt_conn as bs h1 h2]

theorem lexLt_false_trans (a b c : List Char)
    (h1 : lexLt b a = false) (h2 : lexLt c b = false) : lexLt c a = false := by
  cases h : lexLt c a
  · rfl
  · exfalso
    by_cases hbc : lexLt b c = true
    · have := lexLt_trans b c a hbc h
      simp [this] at h1
    · have hbc' : b = c := lexLt_conn b c (Bool.not_eq_true _ ▸ hbc) h2
      subst hbc'
      simp [h] at h1

theorem string_data_inj {a b : String} (h : a.data = b.data) : a = b := by
  cases a; cases b; exact congrArg String.mk h

theorem perm_insByName (x : String × Val) :
    ∀ l : List (String × Val), List.Perm (insByName x l) (x :: l)
  | [] => List.Perm.refl _
  | y :: ys => by
    by_cases hy : lexLt y.1.data x.1.data
    · simp only [insByName, hy, if_true]
      exact ((perm_insByName x ys).cons y).trans (List.Perm.swap x y ys)
    · simp [insByName, hy]

theorem perm_sortSyms : ∀ l : List (String × Val), List.Perm (sortSyms l) l
  | [] => List.Perm.refl _
  | x :: xs => by
    have h1 : sortSyms (x :: xs) = insByName x (sortSyms xs) := rfl
    rw [h1]
    exact (perm_insByName x (sortSyms xs)).trans ((perm_sortSyms xs).cons x)

theorem sorted_insByName (x : String × Val) :
    ∀ l : List (String × Val),
      List.Pairwise (fun a b : String × Val => lexLt b.1.data a.1.data = false) l →
      List.Pairwise (fun a b : String × Val => lexLt b.1.data a.1.data = false) (insByName x l)
  | [], _ => by simp [insByName]
  | y :: ys, hp => by
    rcases List.pairwise_cons.mp hp with ⟨hy, hys⟩
    by_cases hlt : lexLt y.1.data x.1.data
    · simp only [insByName, hlt, if_true]
      refine List.pairwise_cons.mpr ⟨?_, sorted_insByName x ys hys⟩
      intro z hz
      rcases List.mem_cons.mp ((List.Perm.mem_iff (perm_insByName x ys)).mp hz) with hzx | hzys
      · subst hzx
        exact lexLt_asymm _ _ hlt
      · exact hy z hzys
    · simp only [insByName, hlt, if_false]
      refine List.pairwise_cons.mpr ⟨?_, hp⟩
      intro z hz
      rcases List.mem_cons.mp hz with hzy | hzys
      · subst hzy
        exact Bool.not_eq_true _ ▸ hlt
      · exact lexLt_false_trans _ _ _ (Bool.not_eq_true _ ▸ hlt) (hy z hzys)

theorem sorted_sortSyms : ∀ l : List (String × Val),
    List.Pairwise (fun a b : String × Val => lexLt b.1.data a.1.data = false) (sortSyms l)
  | [] => List.Pairwise.nil
  | x :: xs => sorted_insByName x (sortSyms xs) (sorted_sortSyms xs)

/-- C2: for every finite mapping of unique names given to the tree
serializer, the in-order traversal of the emitted balanced binary tree
visits exactly the entries of the input mapping (it is a permutation of
them) and visits them in strictly increasing lexicographic order of
name. -/
theorem tree_inorder_strictly_sorted (syms : List (String × Val))
    (hnd : (syms.map Prod.fst).Nodup) :
    List.Perm (inorder (make_happy_tree syms)) syms ∧
    List.Pairwise (fun a b : String => lexLt a.data b.data = true)
      ((inorder (make_happy_tree syms)).map Prod.fst) := by
  have hin : inorder (make_happy_tree syms) = sortSyms syms :=
    inorder_do_nodeF _ _ (le_refl _)
  have hperm : List.Perm (sortSyms syms) syms := perm_sortSyms syms
  refine ⟨by rw [hin]; exact hperm, ?_⟩
  rw [hin]
  have hs : List.Pairwise (fun a b : String × Val => lexLt b.1.data a.1.data = false)
      (sortSyms syms) := sorted_sortSyms syms
  have hnd2 : ((sortSyms syms).map Prod.fst).Nodup :=
    ((hperm.map Prod.fst).nodup_iff).mpr hnd
  have hne : List.Pairwise (fun a b : String × Val => a.1 ≠ b.1) (sortSyms syms) :=
    List.pairwise_map.mp hnd2
  refine List.pairwise_map.mpr ((hs.and hne).imp ?_)
  intro a b hab
  cases h : lexLt a.1.data b.1.data
  · exact absurd (string_data_inj (lexLt_conn _ _ h hab.1)) hab.2
  · rfl

/-- C2 witness: a concrete two-entry mapping with unique names. -/
theorem tree_inorder_strictly_sorted_witness :
    List.Perm (inorder (make_happy_tree [("b", Val.hdrs ["x"]), ("a", Val.redirect "b")]))
      [("b", Val.hdrs ["x"]), ("a", Val.redirect "b")] ∧
    List.Pairwise (fun a b : String => lexLt a.data b.data = true)
      ((inorder (make_happy_tree
        [("b", Val.hdrs ["x"]), ("a", Val.redirect "b")])).map Prod.fst) :=
  tree_inorder_strictly_sorted [("b", Val.hdrs ["x"]), ("a", Val.redirect "b")] (by decide)

/-- C3: for every input mapping with `n` entries, the tree emitted by the
serializer has maximum root-to-leaf depth exactly `⌈log2 (n + 1)⌉`
(`Nat.clog 2 (n + 1)`); an empty partition is the explicit `nil` marker
with depth 0. -/
theorem tree_depth_clog (syms : List (String × Val)) :
    depth (make_happy_tree syms) = Nat.clog 2 (syms.length + 1) := by
  have hlen : (sortSyms syms).length = syms.length := (perm_sortSyms syms).length_eq
  calc depth (make_happy_tree syms) = Nat.clog 2 ((sortSyms syms).length + 1) :=
        depth_do_nodeF (sortSyms syms).length (sortSyms syms) (le_refl _)
    _ = Nat.clog 2 (syms.length + 1) := by rw [hlen]

theorem manStep_preserves_lookup (st : ManState) (g : String × List String)
    {n : String} {v : List String} (h : dlookup st.tbl n = some v) :
    dlookup (manStep st g).tbl n = some v := by
  unfold manStep
  split
  · split
    · exact h
    · exact h
  · rw [dlookup_append_of_isSome st.tbl _ n (by simp [h])]
    exact h

theorem manFold_preserves_lookup :
    ∀ (fs : List (String × List String)) (st : ManState) {n : String} {v : List String},
      dlookup st.tbl n = some v → dlookup ((fs.foldl manStep st).tbl) n = some v
  | [], _, _, _, h => h
  | g :: fs, st, _, _, h =>
    manFold_preserves_lookup fs (manStep st g) (manStep_preserves_lookup st g h)

theorem manRun_append (l1 l2 : List (String × List String)) :
    manRun (l1 ++ l2) = l2.foldl manStep (manRun l1) := by
  simp [manRun, List.foldl_append]

/-- C5: when a man-page fact's name is seen again with a header set that
differs from the stored one, the stored first-seen set is kept (and still
survives any later facts), the table is unchanged, and a conflict
diagnostic is emitted. -/
theorem man_conflict_first_seen (pre : List (String × List String))
    (f : String × List String) (rest : List (String × List String))
    (stored : List String)
    (h1 : dlookup (manRun pre).tbl f.1 = some stored)
    (h2 : hsEq stored f.2 = false) :
    dlookup (manRun (pre ++ f :: rest)).tbl f.1 = some stored ∧
    (manRun (pre ++ [f])).tbl = (manRun pre).tbl ∧
    (manRun (pre ++ [f])).diags = (manRun pre).diags ++ [manConflictMsg f.1 stored f.2] := by
  have hstep : manStep (manRun pre) f =
      ⟨(manRun pre).tbl, (manRun pre).diags ++ [manConflictMsg f.1 stored f.2]⟩ := by
    unfold manStep
    rw [h1]
    simp [h2]
  refine ⟨?_, ?_, ?_⟩
  · rw [manRun_append pre (f :: rest)]
    simp only [List.foldl_cons]
    exact manFold_preserves_lookup rest _ (by rw [hstep]; exact h1)
  · rw [manRun_append pre [f]]
    simp only [List.foldl_cons, List.foldl_nil]
    rw [hstep]
  · rw [manRun_append pre [f]]
    simp only [List.foldl_cons, List.foldl_nil]
    rw [hstep]

/-- C5 witness: the same name with `{"a.h"}` then `{"b.h"}` keeps `{"a.h"}`
and reports the conflict. -/
theorem man_conflict_first_seen_witness :
    dlookup (manRun ([("f", ["a.h"])] ++ ("f", ["b.h"]) :: [])).tbl "f" = some ["a.h"] ∧
    (manRun ([("f", ["a.h"])] ++ [("f", ["b.h"])])).tbl = (manRun [("f", ["a.h"])]).tbl ∧
    (manRun ([("f", ["a.h"])] ++ [("f", ["b.h"])])).diags =
      (manRun [("f", ["a.h"])]).diags ++ [manConflictMsg "f" ["a.h"] ["b.h"]] :=
  man_conflict_first_seen [("f", ["a.h"])] ("f", ["b.h"]) [] ["a.h"] (by rfl) (by rfl)

/-- C10: a re-encountered man-page fact never changes the table, and a
conflict diagnostic is emitted if and only if its header set differs from
the stored one. -/
theorem man_duplicate_policy (st : ManState) (f : String × List String)
    (stored : List String) (h : dlookup st.tbl f.1 = some stored) :
    (manStep st f).tbl = st.tbl ∧
    ((manStep st f).diags = st.diags ↔ hsEq stored f.2 = true) := by
  unfold manStep
  rw [h]
  cases he : hsEq stored f.2
  · simp [he]
  · simp [he]

/-- C10 witness: an identical repeated fact leaves the state silent, and
the diagnostic equivalence holds at a concrete differing fact too. -/
theorem man_duplicate_policy_witness :
    ((manStep ⟨[("f", ["a.h"])], []⟩ ("f", ["a.h"])).tbl = [("f", ["a.h"])] ∧
      ((manStep ⟨[("f", ["a.h"])], []⟩ ("f", ["a.h"])).diags = [] ↔
        hsEq ["a.h"] ["a.h"] = true)) :=
  man_duplicate_policy ⟨[("f", ["a.h"])], []⟩ ("f", ["a.h"]) ["a.h"] (by rfl)

/-- C6: a man-page fact is inserted into the C table only when its name is
absent there (with headers unchanged), and into the C++ table only when
neither the bare nor the `std::`-qualified name exists there (with the
shadow map applied); existing entries are never overwritten. -/
theorem merge_backfill_step (cs cpps : List (String × List String))
    (name : String) (hdrs : List String) :
    ((dlookup cs name).isSome = true → (mergeStep (cs, cpps) (name, hdrs)).1 = cs) ∧
    (dlookup cs name = none → (mergeStep (cs, cpps) (name, hdrs)).1 = cs ++ [(name, hdrs)]) ∧
    (((dlookup cpps name).isSome = true ∨ (dlookup cpps ("std::" ++ name)).isSome = true) →
      (mergeStep (cs, cpps) (name, hdrs)).2 = cpps) ∧
    (dlookup cpps name = none → dlookup cpps ("std::" ++ name) = none →
      (mergeStep (cs, cpps) (name, hdrs)).2 = cpps ++ [(name, salvagedSet hdrs)]) := by
  unfold mergeStep
  refine ⟨?_, ?_, ?_, ?_⟩
  · intro h; simp [h]
  · intro h; simp [h]
  · rintro (h | h) <;> simp [h]
  · intro h1 h2; simp [h1, h2]

/-- C6 witness: a fact absent from the C table is inserted there verbatim,
while the C++ table is left alone because the qualified form exists. -/
theorem merge_backfill_step_witness :
    (mergeStep ([], [("std::x", ["cmath"])]) ("x", ["math.h"])).1 = [("x", ["math.h"])] ∧
    (mergeStep ([], [("std::x", ["cmath"])]) ("x", ["math.h"])).2 = [("std::x", ["cmath"])] :=
  ⟨(merge_backfill_step [] [("std::x", ["cmath"])] "x" ["math.h"]).2.1 (by rfl),
   (merge_backfill_step [] [("std::x", ["cmath"])] "x" ["math.h"]).2.2.1
     (Or.inr (by rfl))⟩

/-- C7: for a dialect-2 name containing the namespace separator, the
decanonicalizer registers the trailing unqualified component as a redirect
to the qualified name only when the short name is not yet an entry;
otherwise it reports a collision and leaves the table (and hence the
existing entry's value) completely unchanged. -/
theorem decanon_collision_step (tbl : List (String × Val)) (diags : List String)
    (name : String) (v : Val) (short : String)
    (hs : shortNameOf name = some short) :
    ((dlookup tbl short).isSome = true →
      decanonStep (tbl, diags) (name, v) = (tbl, diags ++ ["conflict " ++ name])) ∧
    (dlookup tbl short = none →
      decanonStep (tbl, diags) (name, v) = (tbl ++ [(short, Val.redirect name)], diags)) := by
  unfold decanonStep
  rw [hs]
  constructor
  · intro h; simp [h]
  · intro h; simp [h]

/-- C7 witness: the auto short-alias candidate `"log"` already present as a
direct entry is preserved unchanged and a collision is reported. -/
theorem decanon_collision_step_witness :
    decanonStep ([("log", Val.hdrs ["math.h"])], []) ("std::log", Val.hdrs ["cmath"]) =
      ([("log", Val.hdrs ["math.h"])], ["conflict std::log"]) :=
  (decanon_collision_step [("log", Val.hdrs ["math.h"])] [] "std::log" (Val.hdrs ["cmath"])
    "log" (by rfl)).1 (by rfl)

/-- C8: during dialect-2 alias resolution, a record with a non-empty alias
target halts the run with a lookup error when the target is absent from the
table; when present, the record's kind becomes the composite
`kind(targetKind)` tag and the record inherits the target's link. -/
theorem alias_resolution_step (tbl : List (String × Sym)) (name : String) (sym : Sym)
    (a : String) (hl : dlookup tbl name = some sym) (ha : sym.aliasAttr = some a)
    (hne : ¬(a = "")) :
    (dlookup tbl a = none → resolveAliasStep tbl name = .error (aliasErrMsg a)) ∧
    (∀ other : Sym, dlookup tbl a = some other →
      resolveAliasStep tbl name = .ok (dupdate tbl name
        { sym with type := sym.type ++ "(" ++ other.type ++ ")", link := other.link })) := by
  unfold resolveAliasStep
  rw [hl]
  have hf : falsyOpt (some a) = false := by
    simp [falsyOpt, hne]
  simp only [ha, hf, Bool.false_eq_true, if_false]
  constructor
  · intro h; rw [h]
  · intro other h; rw [h]

/-- C8 witness: a record whose alias target is missing raises the lookup
error, at a concrete one-record table. -/
theorem salvage_case_c (cTbl manTbl : List (String × List String))
    (acc : List (String × List String)) (diags : List String)
    (name : String) (sym : Sym) (hh : truthyHeader sym = false)
    (S : List String) (hstd : isStdQualified name = true)
    (hS : dlookup cTbl (stripStd name) = some S)
    (hint : (interB S shadowKeys).isEmpty = false) :
    filterCppStep cTbl manTbl (acc, diags) (name, sym) =
      (acc ++ [(name, salvagedSet S)], diags ++ [salvageCMsg name (salvagedSet S)]) := by
  unfold filterCppStep
  simp [hh, hstd, hS, hint]

theorem salvage_case_man (cTbl manTbl : List (String × List String))
    (acc : List (String × List String)) (diags : List String)
    (name : String) (sym : Sym) (hh : truthyHeader sym = false)
    (M : List String) (hstd : isStdQualified name = true)
    (hcg : salvageGuard cTbl name = false)
    (hM : dlookup manTbl (stripStd name) = some M)
    (hint : (interB M shadowKeys).isEmpty = false) :
    filterCppStep cTbl manTbl (acc, diags) (name, sym) =
      (acc ++ [(name, salvagedSet M)], diags ++ [salvageManMsg name (salvagedSet M)]) := by
  unfold filterCppStep
  cases hc : dlookup cTbl (stripStd name) with
  | none => simp [hh, hstd, hc, hM, hint]
  | some s =>
    have hemp : (interB s shadowKeys).isEmpty = true := by
      unfold salvageGuard at hcg
      rw [hc] at hcg
      simpa using hcg
    simp [hh, hstd, hc, hemp, hM, hint]

theorem salvage_case_discard (cTbl manTbl : List (String × List String))
    (acc : List (String × List String)) (diags : List String)
    (name : String) (sym : Sym) (hh : truthyHeader sym = false)
    (hfail : isStdQualified name = false ∨
      (salvageGuard cTbl name = false ∧ salvageGuard manTbl name = false)) :
    filterCppStep cTbl manTbl (acc, diags) (name, sym) =
      (acc, diags ++ [discardMsg "C++" name]) := by
  unfold filterCppStep
  rcases hfail with hstd | ⟨hcg, hmg⟩
  · simp [hh, hstd]
  · cases hstd : isStdQualified name with
    | false => simp [hh, hstd]
    | true =>
      cases hc : dlookup cTbl (stripStd name) with
      | none =>
        cases hm : dlookup manTbl (stripStd name) with
        | none => simp [hh, hstd, hc, hm]
        | some m =>
          have hemp : (interB m shadowKeys).isEmpty = true := by
            unfold salvageGuard at hmg
            rw [hm] at hmg
            simpa using hmg
          simp [hh, hstd, hc, hm, hemp]
      | some s =>
        have hemps : (interB s shadowKeys).isEmpty = true := by
          unfold salvageGuard at hcg
          rw [hc] at hcg
          simpa using hcg
        cases hm : dlookup manTbl (stripStd name) with
        | none => simp [hh, hstd, hc, hemps, hm]
        | some m =>
          have hemp : (interB m shadowKeys).isEmpty = true := by
            unfold salvageGuard at hmg
            rw [hm] at hmg
            simpa using hmg
          simp [hh, hstd, hc, hemps, hm, hemp]

/-- C4: a dialect-2 symbol lacking a directly resolved header is kept with
the shadow-mapped header set of its unqualified remainder's dialect-1 entry
(legacy headers replaced by their modern equivalents, others passed
through) and the salvage is reported, when the name is `std::`-qualified
and that entry's headers meet the shadow map's legacy set; the man-page
table is tried the same way as a second fallback; a symbol salvageable by
neither path is excluded and the discard is reported. -/
theorem cpp_salvage_step (cTbl manTbl : List (String × List String))
    (acc : List (String × List String)) (diags : List String)
    (name : String) (sym : Sym) (hh : truthyHeader sym = false) :
    (∀ S : List String, isStdQualified name = true →
      dlookup cTbl (stripStd name) = some S →
      (interB S shadowKeys).isEmpty = false →
      filterCppStep cTbl manTbl (acc, diags) (name, sym) =
        (acc ++ [(name, salvagedSet S)], diags ++ [salvageCMsg name (salvagedSet S)])) ∧
    (∀ M : List String, isStdQualified name = true → salvageGuard cTbl name = false →
      dlookup manTbl (stripStd name) = some M →
      (interB M shadowKeys).isEmpty = false →
      filterCppStep cTbl manTbl (acc, diags) (name, sym) =
        (acc ++ [(name, salvagedSet M)], diags ++ [salvageManMsg name (salvagedSet M)])) ∧
    ((isStdQualified name = false ∨
        (salvageGuard cTbl name = false ∧ salvageGuard manTbl name = false)) →
      filterCppStep cTbl manTbl (acc, diags) (name, sym) =
        (acc, diags ++ [discardMsg "C++" name])) :=
  ⟨fun S hstd hS hint => salvage_case_c cTbl manTbl acc diags name sym hh S hstd hS hint,
   fun M hstd hcg hM hint => salvage_case_man cTbl manTbl acc diags name sym hh M hstd hcg hM hint,
   fun hfail => salvage_case_discard cTbl manTbl acc diags name sym hh hfail⟩

/-- C4 witness: the spec's example, where legacy `"math.h"` salvages to
`"cmath"` through the dialect-1 cross reference. -/
theorem cpp_salvage_step_witness :
    filterCppStep [("log10", ["math.h"])] [] ([], [])
      ("std::log10", (⟨"std::log10", "const", none, none, none⟩ : Sym)) =
      ([("std::log10", ["cmath"])], [salvageCMsg "std::log10" ["cmath"]]) :=
  (cpp_salvage_step [("log10", ["math.h"])] [] [] [] "std::log10"
    ⟨"std::log10", "const", none, none, none⟩ (by rfl)).1 ["math.h"] (by rfl) (by rfl) (by rfl)

theorem setInsert_ne_nil (s : List String) (x : String) : setInsert s x ≠ [] := by
  unfold setInsert
  split
  · intro hc
    subst hc
    simp_all
  · simp

theorem foldl_setInsert_ne_nil :
    ∀ (xs : List String) (s : List String), s ≠ [] → xs.foldl setInsert s ≠ []
  | [], _, h => h
  | x :: xs, s, _ => foldl_setInsert_ne_nil xs (setInsert s x) (setInsert_ne_nil s x)

theorem setOfList_ne_nil (l : List String) (h : l ≠ []) : setOfList l ≠ [] := by
  cases l with
  | nil => exact absurd rfl h
  | cons x xs =>
    unfold setOfList
    simp only [List.foldl_cons]
    exact foldl_setInsert_ne_nil xs (setInsert [] x) (setInsert_ne_nil [] x)

theorem salvagedSet_ne_nil (l : List String) (h : l ≠ []) : salvagedSet l ≠ [] := by
  unfold salvagedSet
  exact setOfList_ne_nil _ (by simpa using h)

theorem interB_source_ne_nil (s keys : List String)
    (h : (interB s keys).isEmpty = false) : s ≠ [] := by
  intro hs
  subst hs
  simp [interB] at h

theorem valsNonempty_snoc (t : List (String × List String)) (p : String × List String)
    (ht : valsNonempty t = true) (hp : p.2 ≠ []) : valsNonempty (t ++ [p]) = true := by
  simp only [valsNonempty, List.all_append, List.all_cons, List.all_nil, Bool.and_true,
    Bool.and_eq_true]
  exact ⟨by simpa [valsNonempty] using ht, by simp [List.isEmpty_iff, hp]⟩

theorem valsNonempty_mem (t : List (String × List String)) (p : String × List String)
    (ht : valsNonempty t = true) (hm : p ∈ t) : p.2 ≠ [] := by
  have := (List.all_eq_true.mp ht) p hm
  simpa [List.isEmpty_iff] using this

theorem manStep_valsNonempty (st : ManState) (f : String × List String)
    (hst : valsNonempty st.tbl = true) (hf : f.2 ≠ []) :
    valsNonempty (manStep st f).tbl = true := by
  unfold manStep
  split
  · split
    · exact hst
    · exact hst
  · exact valsNonempty_snoc st.tbl (f.1, f.2) hst hf

theorem manFold_valsNonempty :
    ∀ (fs : List (String × List String)) (st : ManState),
      valsNonempty st.tbl = true → (∀ f ∈ fs, f.2 ≠ []) →
      valsNonempty ((fs.foldl manStep st).tbl) = true
  | [], _, hst, _ => hst
  | f :: fs, st, hst, hfs =>
    manFold_valsNonempty fs (manStep st f)
      (manStep_valsNonempty st f hst (hfs f (List.mem_cons_self f fs)))
      (fun g hg => hfs g (List.mem_cons_of_mem f hg))

theorem pmLine_facts_ne_nil (path : String) (st : PMState) (line : String)
    (h : ∀ f ∈ st.facts, f.2 ≠ []) :
    ∀ f ∈ ((pmLine path st line).1).facts, f.2 ≠ [] := by
  unfold pmLine
  dsimp only
  split
  · rename_i fcap heq
    split
    · simpa using h
    · rename_i hni
      intro f hf
      rcases (by simpa using hf :
          f ∈ st.facts ∨ f = (String.mk fcap, pmIncludes st.includes line)) with hf1 | hf2
      · exact h f hf1
      · rw [hf2]
        simpa [List.isEmpty_iff] using hni
  · simpa using h

theorem pmGo_facts_ne_nil (path : String) :
    ∀ (lines : List String) (st : PMState),
      (∀ f ∈ st.facts, f.2 ≠ []) → ∀ f ∈ (pmGo path lines st).facts, f.2 ≠ []
  | [], _, h => h
  | line :: rest, st, h => by
    unfold pmGo
    cases hl : pmLine path st line with
    | mk st2 brk =>
      have h2 : ∀ f ∈ st2.facts, f.2 ≠ [] := by
        have := pmLine_facts_ne_nil path st line h
        rw [hl] at this
        exact this
      cases brk
      · simpa using pmGo_facts_ne_nil path rest st2 h2
      · simpa using h2

theorem parse_man_facts_ne_nil (path : String) (text : List String) :
    ∀ f ∈ (parse_man path text).facts, f.2 ≠ [] :=
  pmGo_facts_ne_nil path text ⟨[], [], []⟩ (by simp)

theorem buildManSyms_valsNonempty (manPages : List (String × List String)) :
    valsNonempty (buildManSyms manPages).tbl = true := by
  unfold buildManSyms manRun
  refine manFold_valsNonempty _ _ (by rfl) ?_
  intro f hf
  rcases List.mem_flatten.mp hf with ⟨facts, hfacts, hmem⟩
  rcases List.mem_map.mp hfacts with ⟨pg, _, heq⟩
  subst heq
  exact parse_man_facts_ne_nil pg.1 pg.2 f hmem

theorem filterCStep_ok_valsNonempty (recTbl : List (String × Sym))
    (manTbl : List (String × List String))
    (st : List (String × List String) × List String) (e : String × Sym)
    (st2 : List (String × List String) × List String)
    (h : filterCStep recTbl manTbl st e = Except.ok st2)
    (hacc : valsNonempty st.1 = true) : valsNonempty st2.1 = true := by
  unfold filterCStep at h
  split at h
  · simp only [Except.ok.injEq] at h
    subst h
    exact valsNonempty_snoc _ _ hacc (by simp)
  · split at h
    · exact absurd h (by simp)
    · split at h
      · rename_i m hm
        split at h
        · rename_i hint
          simp only [Except.ok.injEq] at h
          subst h
          exact valsNonempty_snoc _ _ hacc
            (salvagedSet_ne_nil m (interB_source_ne_nil m _ (by simpa using hint)))
        · simp only [Except.ok.injEq] at h
          subst h
          exact hacc
      · simp only [Except.ok.injEq] at h
        subst h
        exact hacc

theorem filterCGo_ok_valsNonempty (recTbl : List (String × Sym))
    (manTbl : List (String × List String)) :
    ∀ (es : List (String × Sym)) (st out : List (String × List String) × List String),
      filterCGo recTbl manTbl es st = .ok out → valsNonempty st.1 = true →
      valsNonempty out.1 = true
  | [], st, out, h, hacc => by
    unfold filterCGo at h
    simp only [Except.ok.injEq] at h
    subst h
    exact hacc
  | e :: es, st, out, h, hacc => by
    unfold filterCGo at h
    split at h
    · exact absurd h (by simp)
    · rename_i st2 hstep
      exact filterCGo_ok_valsNonempty recTbl manTbl es st2 out h
        (filterCStep_ok_valsNonempty recTbl manTbl st e st2 hstep hacc)

theorem filter_syms_C_valsNonempty (recTbl : List (String × Sym))
    (manTbl : List (String × List String)) (out : List (String × List String) × List String)
    (h : filter_syms_C recTbl manTbl = .ok out) : valsNonempty out.1 = true :=
  filterCGo_ok_valsNonempty recTbl manTbl recTbl ([], []) out h rfl

theorem filterCppStep_valsNonempty (cTbl manTbl : List (String × List String))
    (st : List (String × List String) × List String) (e : String × Sym)
    (hacc : valsNonempty st.1 = true) :
    valsNonempty (filterCppStep cTbl manTbl st e).1 = true := by
  unfold filterCppStep
  split
  · exact valsNonempty_snoc _ _ hacc (by simp)
  · split
    · rename_i s hs
      split
      · rename_i hint
        exact valsNonempty_snoc _ _ hacc
          (salvagedSet_ne_nil s (interB_source_ne_nil s _ (by simpa using hint)))
      · split
        · rename_i m hm
          split
          · rename_i hintm
            exact valsNonempty_snoc _ _ hacc
              (salvagedSet_ne_nil m (interB_source_ne_nil m _ (by simpa using hintm)))
          · exact hacc
        · exact hacc
    · split
      · rename_i m hm
        split
        · rename_i hintm
          exact valsNonempty_snoc _ _ hacc
            (salvagedSet_ne_nil m (interB_source_ne_nil m _ (by simpa using hintm)))
        · exact hacc
      · exact hacc

theorem filterCpp_fold_valsNonempty (cTbl manTbl : List (String × List String)) :
    ∀ (es : List (String × Sym)) (st : List (String × List String) × List String),
      valsNonempty st.1 = true →
      valsNonempty ((es.foldl (filterCppStep cTbl manTbl) st)).1 = true
  | [], _, hacc => hacc
  | e :: es, st, hacc =>
    filterCpp_fold_valsNonempty cTbl manTbl es _
      (filterCppStep_valsNonempty cTbl manTbl st e hacc)

theorem filter_syms_cpp_valsNonempty (cTbl manTbl : List (String × List String))
    (recTbl : List (String × Sym)) :
    valsNonempty (filter_syms_cpp cTbl manTbl recTbl).1 = true :=
  filterCpp_fold_valsNonempty cTbl manTbl recTbl ([], []) rfl

theorem mergeStep_valsNonempty (st : List (String × List String) × List (String × List String))
    (f : String × List String) (h1 : valsNonempty st.1 = true)
    (h2 : valsNonempty st.2 = true) (hf : f.2 ≠ []) :
    valsNonempty (mergeStep st f).1 = true ∧ valsNonempty (mergeStep st f).2 = true := by
  unfold mergeStep
  constructor
  · dsimp only
    split
    · exact h1
    · exact valsNonempty_snoc _ _ h1 hf
  · dsimp only
    split
    · exact h2
    · exact valsNonempty_snoc _ _ h2 (salvagedSet_ne_nil _ hf)

theorem mergeFold_valsNonempty :
    ∀ (man : List (String × List String))
      (st : List (String × List String) × List (String × List String)),
      valsNonempty st.1 = true → valsNonempty st.2 = true → (∀ f ∈ man, f.2 ≠ []) →
      valsNonempty (man.foldl mergeStep st).1 = true ∧
      valsNonempty (man.foldl mergeStep st).2 = true
  | [], _, h1, h2, _ => ⟨h1, h2⟩
  | f :: man, st, h1, h2, hman => by
    have hs := mergeStep_valsNonempty st f h1 h2 (hman f (List.mem_cons_self f man))
    exact mergeFold_valsNonempty man (mergeStep st f) hs.1 hs.2
      (fun g hg => hman g (List.mem_cons_of_mem f hg))

theorem dlookup_mem {α : Type} : ∀ (t : List (String × α)) (k : String) (v : α),
    dlookup t k = some v → (k, v) ∈ t
  | [], k, v, h => by simp [dlookup] at h
  | p :: t, k, v, h => by
    by_cases hk : p.1 = k
    · simp only [dlookup, hk, if_pos] at h
      injection h with h2
      subst h2
      subst hk
      exact List.mem_cons_self _ _
    · simp only [dlookup, hk, if_neg, if_false] at h
      exact List.mem_cons_of_mem p (dlookup_mem t k v h)

theorem toVal_hdrs_nonempty (t : List (String × List String)) (h : valsNonempty t = true) :
    ∀ p ∈ toVal t, ∃ hs, p.2 = Val.hdrs hs ∧ hs ≠ [] := by
  intro p hp
  rcases List.mem_map.mp hp with ⟨q, hq, heq⟩
  subst heq
  exact ⟨q.2, rfl, valsNonempty_mem t q h hq⟩

theorem finalIndexOkB_toVal (t : List (String × List String)) (h : valsNonempty t = true) :
    finalIndexOkB (toVal t) = true := by
  unfold finalIndexOkB
  refine List.all_eq_true.mpr ?_
  intro p hp
  rcases toVal_hdrs_nonempty t h p hp with ⟨hs, hp2, hne⟩
  rw [hp2]
  simp [List.isEmpty_iff, hne]

theorem decanonStep_cases (cur : List (String × Val)) (diags : List String) (e : String × Val) :
    (decanonStep (cur, diags) e).1 = cur ∨
    ∃ short, (decanonStep (cur, diags) e).1 = cur ++ [(short, Val.redirect e.1)] := by
  unfold decanonStep
  cases hs : shortNameOf e.1 with
  | none => exact Or.inl rfl
  | some short =>
    by_cases hd : (dlookup cur short).isSome = true
    · simp [hd]
    · simp only [hd, Bool.false_eq_true, if_false]
      exact Or.inr ⟨short, rfl⟩

theorem decanonGo_inv (t0 : List (String × Val)) :
    ∀ (snap : List (String × Val)) (cur : List (String × Val)) (diags : List String),
      (∀ e ∈ snap, ∃ q, q ∈ t0 ∧ q.1 = e.1) →
      (∃ ex, cur = t0 ++ ex ∧
        ∀ p ∈ ex, ∃ tgt, p.2 = Val.redirect tgt ∧ ∃ q, q ∈ t0 ∧ q.1 = tgt) →
      ∃ ex, (snap.foldl decanonStep (cur, diags)).1 = t0 ++ ex ∧
        ∀ p ∈ ex, ∃ tgt, p.2 = Val.redirect tgt ∧ ∃ q, q ∈ t0 ∧ q.1 = tgt
  | [], cur, diags, _, hinv => hinv
  | e :: snap, cur, diags, hsnap, hinv => by
    rw [List.foldl_cons]
    rcases hc : decanonStep (cur, diags) e with ⟨cur2, diags2⟩
    have hsnap2 : ∀ g ∈ snap, ∃ q, q ∈ t0 ∧ q.1 = g.1 :=
      fun g hg => hsnap g (List.mem_cons_of_mem e hg)
    have hcases := decanonStep_cases cur diags e
    rw [hc] at hcases
    rcases hcases with hsame | ⟨short, happ⟩
    · dsimp only at hsame
      subst hsame
      exact decanonGo_inv t0 snap cur2 diags2 hsnap2 hinv
    · dsimp only at happ
      subst happ
      rcases hinv with ⟨ex, hcur, hex⟩
      refine decanonGo_inv t0 snap _ diags2 hsnap2
        ⟨ex ++ [(short, Val.redirect e.1)], ?_, ?_⟩
      · rw [hcur, List.append_assoc]
      · intro p hp
        rcases List.mem_append.mp hp with hp1 | hp2
        · exact hex p hp1
        · rw [List.mem_singleton.mp hp2]
          exact ⟨e.1, rfl, hsnap e (List.mem_cons_self e snap)⟩

theorem finalIndexOkB_decanon (tbl : List (String × List String))
    (h : valsNonempty tbl = true) :
    finalIndexOkB (decanonicalize (toVal tbl)).1 = true := by
  have hvals := toVal_hdrs_nonempty tbl h
  have hinv := decanonGo_inv (toVal tbl) (toVal tbl) (toVal tbl) []
    (fun e he => ⟨e, he, rfl⟩) ⟨[], by simp, by simp⟩
  unfold decanonicalize
  rcases hinv with ⟨ex, heq, hex⟩
  rw [heq]
  refine List.all_eq_true.mpr ?_
  intro p hp
  rcases List.mem_append.mp hp with hp1 | hp2
  · rcases hvals p hp1 with ⟨hs, hp2, hne⟩
    rw [hp2]
    simp [List.isEmpty_iff, hne]
  · rcases hex p hp2 with ⟨tgt, hpv, q, hq, hq1⟩
    rw [hpv]
    dsimp only
    have hq2 : (dlookup (toVal tbl) q.1).isSome = true :=
      dlookup_isSome_of_mem (toVal tbl) q hq
    rw [hq1] at hq2
    rw [dlookup_append_of_isSome (toVal tbl) ex tgt hq2]
    rcases Option.isSome_iff_exists.mp hq2 with ⟨v, hv⟩
    rcases hvals (tgt, v) (dlookup_mem (toVal tbl) tgt v hv) with ⟨hs, hveq, hne⟩
    dsimp only at hveq
    rw [hv, hveq]
    simp [List.isEmpty_iff, hne]

/-- C1: for every final per-dialect index handed to the serializer, every
name maps either directly to a non-empty header set, or to a redirect whose
target is itself an entry of that index carrying a non-empty header set; in
particular no redirect's target is a redirect, so every redirect chain has
length exactly 1. -/
theorem final_index_invariant (inp : Inputs) (out : MainOut)
    (h : runMain inp = .ok out) :
    finalIndexOkB out.cFinal = true ∧ finalIndexOkB out.cppFinal = true := by
  simp only [runMain] at h
  cases hra : resolveAliases (loadCpp inp.cppNodes) with
  | error e =>
    simp only [hra] at h
    exact Except.noConfusion h
  | ok cppRecs1 =>
    simp only [hra] at h
    cases hfc : filter_syms_C (resolveHeaders inp.pages (loadC inp.cNodes))
        (buildManSyms inp.manPages).tbl with
    | error e =>
      simp only [hfc] at h
      exact Except.noConfusion h
    | ok cF =>
      simp only [hfc] at h
      injection h with h2
      subst h2
      have hman := buildManSyms_valsNonempty inp.manPages
      have hmanmem : ∀ f ∈ (buildManSyms inp.manPages).tbl, f.2 ≠ [] :=
        fun f hf => valsNonempty_mem _ f hman hf
      have hcF := filter_syms_C_valsNonempty _ _ cF hfc
      have hcpp := filter_syms_cpp_valsNonempty cF.1 (buildManSyms inp.manPages).tbl
        (resolveHeaders inp.pages cppRecs1)
      have hmerge := mergeFold_valsNonempty (buildManSyms inp.manPages).tbl
        (cF.1, (filter_syms_cpp cF.1 (buildManSyms inp.manPages).tbl
          (resolveHeaders inp.pages cppRecs1)).1) hcF hcpp hmanmem
      exact ⟨finalIndexOkB_toVal _ hmerge.1, finalIndexOkB_decanon _ hmerge.2⟩

/-- C1 witness: the invariant holds of the two concrete final indexes the
pipeline computes on `sampleInputs`. -/
theorem final_index_invariant_witness :
    finalIndexOkB sampleOut.cFinal = true ∧ finalIndexOkB sampleOut.cppFinal = true :=
  final_index_invariant sampleInputs sampleOut (by rfl)

/-- C9: the pipeline is deterministic: two complete runs on equal inputs
(man-page streams, the two catalog documents and the page-body store)
produce equal results, in particular byte-identical serialized artifacts;
the embedded pipeline is a pure function of its inputs. -/
theorem pipeline_deterministic (i j : Inputs) (h : i = j) : runMain i = runMain j := by
  rw [h]

/-- C9 witness: two runs on the concrete `sampleInputs` agree. -/
theorem pipeline_deterministic_witness : runMain sampleInputs = runMain sampleInputs :=
  pipeline_deterministic sampleInputs sampleInputs rfl

/-- C8 witness: a record whose alias target is missing raises the lookup
error, at a concrete one-record table. -/
theorem alias_resolution_step_witness :
    resolveAliasStep [("t", (⟨"t", "typedef", some "missing", none, none⟩ : Sym))] "t" =
      .error (aliasErrMsg "missing") :=
  (alias_resolution_step [("t", (⟨"t", "typedef", some "missing", none, none⟩ : Sym))] "t"
    ⟨"t", "typedef", some "missing", none, none⟩
    "missing" (by rfl) (by rfl) (by decide)).1 (by rfl)

end Includeme
